import Mathlib

set_option autoImplicit false

/-!
Verification development for the isomorphic-html-webpack-plugin repository.

The embedded code lives in two source files: `src/evaluate.ts` (the sandbox
evaluator: `evaluate`, `requireLike`, `removeShebang`) and
`src/IsomorphicHtmlWebpackPlugin.ts` (the generator invocation driver:
`generate`, `exportAsset`, `pathToAssetName`).  An additional unnamed source
file contains a variant of `evaluate` that also installs a synthetic `process`
object and a `makeGlobals` prelude.

JavaScript objects are modelled with an explicit heap of property lists and a
value type `HVal` with distinguished constructors for the host objects the
source mentions by name (the host `module`, `process.mainModule`,
`require.extensions`, `require.cache`, host process fields).  Source strings
are modelled as `List Char`.
-/

namespace IsoHtml

/-! ## JavaScript value and heap model -/

/-- A JavaScript value as seen by the sandbox construction code.  `prim`
covers primitives (identified by a tag string), `ref` is a reference to an
object allocated during the evaluation, `undefVal` is `undefined`, and the
remaining constructors are the host objects that `evaluate`/`requireLike`
mention by name: the host `module` of the evaluator file (assigned at
`parent: module`), `process.mainModule`, `require.extensions`,
`require.cache`, and the fields destructured from the host `process`.
`requireFn` is the function returned by `requireLike`: it closes over the
freshly allocated parent-module object and carries the `main`, `extensions`
and `cache` properties assigned to it. -/
inductive HVal where
  | prim (s : String)
  | ref (r : Nat)
  | undefVal
  | hostModule
  | hostMainModule
  | hostRequireExtensions
  | hostRequireCache
  | hostProcessVersion
  | hostProcessArch
  | hostProcessPlatform
  | hostProcessRelease
  | hostProcessEnv
  | requireFn (parentModuleRef : Nat) (main extensions cache : HVal)
deriving DecidableEq, Repr

/-- An object is a list of own properties (name, value). -/
abbrev HObj := List (String × HVal)

/-- Read an own property. -/
def objGet : HObj → String → Option HVal
  | [], _ => none
  | (k0, v0) :: rest, k => if k0 = k then some v0 else objGet rest k

/-- Write an own property (overwrite in place, or append a new one). -/
def objSet : HObj → String → HVal → HObj
  | [], k, v => [(k, v)]
  | (k0, v0) :: rest, k, v =>
    if k0 = k then (k, v) :: rest else (k0, v0) :: objSet rest k v

/-- A heap of allocated objects; a reference is an index into the list. -/
structure Heap where
  objs : List HObj
deriving DecidableEq, Repr

def Heap.empty : Heap := ⟨[]⟩

/-- Allocate a fresh object, returning the new heap and the reference. -/
def Heap.alloc (h : Heap) (o : HObj) : Heap × Nat :=
  (⟨h.objs ++ [o]⟩, h.objs.length)

/-- Dereference (a dangling reference reads as an empty object). -/
def Heap.get (h : Heap) (r : Nat) : HObj :=
  (h.objs[r]?).getD []

/-- Write property `k` of the object at `r`. -/
def Heap.setProp (h : Heap) (r : Nat) (k : String) (v : HVal) : Heap :=
  ⟨h.objs.set r (objSet (h.get r) k v)⟩

theorem objGet_objSet_self (o : HObj) (k : String) (v : HVal) :
    objGet (objSet o k v) k = some v := by
  induction o with
  | nil => simp [objGet, objSet]
  | cons p rest ih =>
    by_cases hk : p.1 = k
    · simp [objSet, hk, objGet]
    · simp [objSet, hk, objGet, ih]

theorem objGet_objSet_ne (o : HObj) (k k' : String) (v : HVal) (hne : k' ≠ k) :
    objGet (objSet o k v) k' = objGet o k' := by
  have hkk : ¬(k = k') := fun h => hne h.symm
  induction o with
  | nil => simp [objGet, objSet, hkk]
  | cons p rest ih =>
    obtain ⟨k0, v0⟩ := p
    by_cases hk : k0 = k
    · subst hk
      simp [objSet, objGet, hkk]
    · by_cases hk' : k0 = k'
      · simp [objSet, hk, objGet, hk', hne]
      · simp [objSet, hk, objGet, hk', ih]

theorem Heap.get_alloc_lt (h : Heap) (o : HObj) (r : Nat) (hr : r < h.objs.length) :
    (h.alloc o).1.get r = h.get r := by
  simp [Heap.alloc, Heap.get, List.getElem?_append_left hr]

theorem Heap.get_alloc_fresh (h : Heap) (o : HObj) :
    (h.alloc o).1.get (h.alloc o).2 = o := by
  simp [Heap.alloc, Heap.get]

theorem Heap.get_setProp_ne (h : Heap) (r r' : Nat) (k : String) (v : HVal)
    (hne : r ≠ r') : (h.setProp r' k v).get r = h.get r := by
  simp [Heap.setProp, Heap.get, List.getElem?_set_ne (fun h => hne h.symm)]

theorem Heap.get_setProp_self (h : Heap) (r : Nat) (k : String) (v : HVal)
    (hr : r < h.objs.length) :
    (h.setProp r k v).get r = objSet (h.get r) k v := by
  simp [Heap.setProp, Heap.get, List.getElem?_set_self, hr]

theorem Heap.length_setProp (h : Heap) (r : Nat) (k : String) (v : HVal) :
    (h.setProp r k v).objs.length = h.objs.length := by
  simp [Heap.setProp]

/-! ## removeShebang (src/evaluate.ts lines 61-63)

The source is `source.replace(/^\#\!.*/, '')`.  The regular expression is
anchored at the start of the string (there is no multiline flag, so `^`
matches only position 0) and `.` does not match the line terminators
`\n`, `\r`, U+2028, U+2029.  Hence the replacement removes the two
characters `#!` together with the rest of the first line content, leaving
the first line terminator (and everything after it) in place; a source not
starting with `#!` is returned unchanged. -/

/-- The characters that a JavaScript regular expression dot does not match. -/
def isLineTerminator (c : Char) : Bool :=
  c = '\n' || c = '\r' || c.toNat = 0x2028 || c.toNat = 0x2029

/-- Translated from `removeShebang` (src/evaluate.ts lines 61-63). -/
def removeShebang : List Char → List Char
  | '#' :: '!' :: rest => rest.dropWhile (fun c => !isLineTerminator c)
  | s => s

/-- Split a source into its lines, treating every line terminator character
as a separator (the separators are dropped; the count of lines is one more
than the count of terminators, so positions of lines after a deleted piece
of text are preserved iff the terminators are preserved). -/
def splitLines : List Char → List (List Char)
  | [] => [[]]
  | c :: rest =>
    if isLineTerminator c then [] :: splitLines rest
    else (c :: (splitLines rest).headD []) :: (splitLines rest).tail

theorem splitLines_ne_nil (s : List Char) : splitLines s ≠ [] := by
  cases s with
  | nil => simp [splitLines]
  | cons c rest =>
    by_cases hc : isLineTerminator c
    · simp [splitLines, hc]
    · simp [splitLines, hc]

/-- Prepending a terminator-free block of characters extends the first line
and leaves all later lines untouched. -/
theorem splitLines_append_noterm (content t : List Char)
    (hc : ∀ c ∈ content, isLineTerminator c = false) :
    splitLines (content ++ t)
      = (content ++ (splitLines t).headD []) :: (splitLines t).tail := by
  induction content with
  | nil =>
    simp only [List.nil_append]
    cases hL : splitLines t with
    | nil => exact absurd hL (splitLines_ne_nil t)
    | cons l ls => simp
  | cons c rest ih =>
    have hcc : isLineTerminator c = false := hc c (by simp)
    have hrest : ∀ x ∈ rest, isLineTerminator x = false := by
      intro x hx; exact hc x (by simp [hx])
    simp only [List.cons_append, splitLines, hcc, Bool.false_eq_true, if_false,
      List.append_eq]
    rw [ih hrest]
    simp

/-- The result of dropWhile is empty or starts with an element violating the
predicate. -/
theorem dropWhile_head_not (p : Char → Bool) (l : List Char) :
    l.dropWhile p = [] ∨
      ∃ c rest, l.dropWhile p = c :: rest ∧ p c = false := by
  induction l with
  | nil => left; simp
  | cons c rest ih =>
    by_cases hc : p c
    · simpa [List.dropWhile, hc] using ih
    · right
      exact ⟨c, rest, by simp [List.dropWhile, hc], by simpa using hc⟩

theorem removeShebang_shebang (rest : List Char) :
    removeShebang ('#' :: '!' :: rest)
      = rest.dropWhile (fun c => !isLineTerminator c) := rfl

/-- The shebang remainder starts the line list with an empty first line. -/
theorem splitLines_dropWhile_noterm (rest : List Char) :
    splitLines (rest.dropWhile (fun c => !isLineTerminator c))
      = [] :: (splitLines (rest.dropWhile (fun c => !isLineTerminator c))).tail := by
  rcases dropWhile_head_not (fun c => !isLineTerminator c) rest with h | ⟨c, r2, h, hc⟩
  · simp [h, splitLines]
  · have hterm : isLineTerminator c = true := by simpa using hc
    simp [h, splitLines, hterm]

/-- C5: for every source string, `evaluate` (via `removeShebang`) strips a
leading interpreter-directive line: when the source starts with `#!`, only
the content of the first line is removed and its line terminator is kept, so
the line list keeps its length and every subsequent line keeps its content
and position; a source that does not start with `#!` (in particular one with
`#!` anywhere else) is left completely untouched. -/
theorem removeShebang_strips_first_line_only :
    (∀ t : List Char, t.take 2 ≠ ['#', '!'] → removeShebang t = t) ∧
    (∀ rest : List Char, ∃ content : List Char,
      (∀ c ∈ content, isLineTerminator c = false) ∧
      ('#' :: '!' :: rest : List Char)
        = '#' :: '!' :: (content ++ removeShebang ('#' :: '!' :: rest)) ∧
      splitLines (removeShebang ('#' :: '!' :: rest))
        = [] :: (splitLines ('#' :: '!' :: rest)).tail) ∧
    (∀ t : List Char,
      (splitLines (removeShebang t)).length = (splitLines t).length) := by
  have hpart1 : ∀ t : List Char, t.take 2 ≠ ['#', '!'] → removeShebang t = t := by
    intro t ht
    match t with
    | [] => rfl
    | [c] =>
      show removeShebang [c] = _
      unfold removeShebang
      split
      · rename_i heq
        injection heq with heq1 heq2
        cases heq2
      · rfl
    | c1 :: c2 :: rest =>
      by_cases h1 : c1 = '#'
      · by_cases h2 : c2 = '!'
        · exact absurd (by simp [h1, h2]) ht
        · subst h1
          show removeShebang ('#' :: c2 :: rest) = _
          unfold removeShebang
          split
          · rename_i heq
            injection heq with heq1 heq2
            injection heq2 with heq3 heq4
            exact absurd heq3 h2
          · rfl
      · show removeShebang (c1 :: c2 :: rest) = _
        unfold removeShebang
        split
        · rename_i heq
          injection heq with heq1 heq2
          exact absurd heq1 h1
        · rfl
  have hpart2 : ∀ rest : List Char, ∃ content : List Char,
      (∀ c ∈ content, isLineTerminator c = false) ∧
      ('#' :: '!' :: rest : List Char)
        = '#' :: '!' :: (content ++ removeShebang ('#' :: '!' :: rest)) ∧
      splitLines (removeShebang ('#' :: '!' :: rest))
        = [] :: (splitLines ('#' :: '!' :: rest)).tail := by
    intro rest
    refine ⟨rest.takeWhile (fun c => !isLineTerminator c), ?_, ?_, ?_⟩
    · intro c hc
      have := List.mem_takeWhile_imp hc
      simpa using this
    · rw [removeShebang_shebang, List.takeWhile_append_dropWhile]
    · rw [removeShebang_shebang]
      have hsplit : splitLines ('#' :: '!' :: rest)
          = ('#' :: '!' :: (splitLines rest).headD []) :: (splitLines rest).tail := by
        simp [splitLines, isLineTerminator]
      have hdecomp : splitLines rest
          = (rest.takeWhile (fun c => !isLineTerminator c)
              ++ (splitLines (rest.dropWhile (fun c => !isLineTerminator c))).headD [])
            :: (splitLines (rest.dropWhile (fun c => !isLineTerminator c))).tail := by
        conv_lhs => rw [← List.takeWhile_append_dropWhile
          (p := fun c => !isLineTerminator c) (l := rest)]
        exact splitLines_append_noterm _ _ (by
          intro c hc
          have := List.mem_takeWhile_imp hc
          simpa using this)
      rw [hsplit, splitLines_dropWhile_noterm rest]
      simp [hdecomp]
  refine ⟨hpart1, hpart2, ?_⟩
  intro t
  match t with
  | [] => rfl
  | [c] => rw [hpart1 [c] (by simp)]
  | c1 :: c2 :: rest =>
    by_cases h1 : c1 = '#'
    · by_cases h2 : c2 = '!'
      · subst h1; subst h2
        obtain ⟨content, -, -, hsp⟩ := hpart2 rest
        rw [hsp]
        have := splitLines_ne_nil ('#' :: '!' :: rest)
        cases hL : splitLines ('#' :: '!' :: rest) with
        | nil => exact absurd hL this
        | cons l ls => simp [hL]
      · rw [hpart1 _ (by simp [h2])]
    · rw [hpart1 _ (by simp [h1])]

/-- Witness for C5 at concrete inputs: a source whose first two characters
are not a shebang is untouched, and a shebang source keeps its line count. -/
theorem removeShebang_strips_first_line_only_witness :
    removeShebang ['a', 'b', 'c'] = ['a', 'b', 'c'] ∧
    (splitLines (removeShebang ['#', '!', 'x', '\n', 'y'])).length
      = (splitLines ['#', '!', 'x', '\n', 'y']).length :=
  ⟨removeShebang_strips_first_line_only.1 ['a', 'b', 'c'] (by decide),
   removeShebang_strips_first_line_only.2.2 ['#', '!', 'x', '\n', 'y']⟩

/-! ## pathToAssetName (src/IsomorphicHtmlWebpackPlugin.ts lines 143-151) -/

def indexHtmlChars : List Char := ['i', 'n', 'd', 'e', 'x', '.', 'h', 't', 'm', 'l']

/-- Translated from line 145: `outputPath.replace(/^(\/|\\)/, '')`.  The
pattern is anchored at position 0 and matches exactly one forward or back
slash, so the replacement removes one leading separator if present. -/
def stripLeadingSlash : List Char → List Char
  | [] => []
  | c :: rest => if c = '/' ∨ c = '\\' then rest else c :: rest

/-- Translated from the test at line 147: `/\.(html?)$/i.test(outputFileName)`.
The pattern is a literal dot, then `htm` with an optional final `l`, anchored
at the end, case-insensitive: the name (lowercased) ends in `.htm` or
`.html`. -/
def regexHtmlTest (s : List Char) : Bool :=
  let l := s.map Char.toLower
  List.isSuffixOf ['.', 'h', 't', 'm'] l || List.isSuffixOf ['.', 'h', 't', 'm', 'l'] l

/-- Split a path into its segments at every forward slash (consecutive
slashes yield empty segments, as in the host path library). -/
def splitOnSlash : List Char → List (List Char)
  | [] => [[]]
  | c :: rest =>
    if c = '/' then [] :: splitOnSlash rest
    else (c :: (splitOnSlash rest).headD []) :: (splitOnSlash rest).tail

/-- Modelled from the host library segment normalization inside
`path.posix.normalize`: empty segments and `.` segments are dropped; a `..`
pops the previous kept segment when there is one that is not itself `..`,
vanishes at the root of an absolute path, and is kept otherwise. -/
def processSegments (isAbs : Bool) :
    List (List Char) → List (List Char) → List (List Char)
  | acc, [] => acc
  | acc, seg :: rest =>
    if seg = [] ∨ seg = ['.'] then processSegments isAbs acc rest
    else if seg = ['.', '.'] then
      if acc ≠ [] ∧ acc.getLast? ≠ some ['.', '.'] then
        processSegments isAbs acc.dropLast rest
      else if isAbs then processSegments isAbs acc rest
      else processSegments isAbs (acc ++ [seg]) rest
    else processSegments isAbs (acc ++ [seg]) rest

/-- Join segments back together with single separators. -/
def intercalateSlash : List (List Char) → List Char
  | [] => []
  | s :: rest => if rest = [] then s else s ++ '/' :: intercalateSlash rest

/-- A posix path is absolute when it starts with a forward slash. -/
def isAbsolutePosix : List Char → Bool
  | '/' :: _ => true
  | _ => false

/-- Modelled from the host library `path.posix.normalize` as invoked through
`path.join(outputFileName, 'index.html')` at line 148: split at separators,
drop empty and `.` segments, resolve `..` segments, rejoin, keep a leading
slash of an absolute path, and fall back to `/` or `.` when nothing is
left.  The host normalize additionally re-appends a trailing separator when
the input had one; the input here always ends in the appended segment
`index.html`, so that rule is vacuous for this call and is not modelled. -/
def normalizePosix (s : List Char) : List Char :=
  let body :=
    intercalateSlash (processSegments (isAbsolutePosix s) [] (splitOnSlash s))
  if isAbsolutePosix s then
    if body = [] then ['/'] else '/' :: body
  else
    if body = [] then ['.'] else body

/-- Modelled from the host library `path.posix.join` as used at line 148
(`path.join(outputFileName, 'index.html')`): empty parts are skipped, the
remaining parts are concatenated with a single separator, and the result is
normalized (collapsing duplicate separators and resolving `.` and `..`
segments). -/
def joinIndexHtml (s : List Char) : List Char :=
  normalizePosix (if s = [] then indexHtmlChars else s ++ '/' :: indexHtmlChars)

/-- Translated from `pathToAssetName` (lines 143-151): strip one leading
separator; if the regular expression does not match, join with
`index.html`; return the name. -/
def pathToAssetName (outputPath : List Char) : List Char :=
  let outputFileName := stripLeadingSlash outputPath
  if regexHtmlTest outputFileName then outputFileName
  else joinIndexHtml outputFileName

/-- The claim's reading of the appending step: `index.html` attached as a
final path segment by plain concatenation, with no path normalization. -/
def plainAppendIndexHtml (s : List Char) : List Char :=
  if s = [] then indexHtmlChars
  else if s.getLast? = some '/' then s ++ indexHtmlChars
  else s ++ '/' :: indexHtmlChars

/-- The asset-name derivation in the words of claim C7 as stated: strip a
leading path separator (forward or back slash); then exactly when the name
does not already end in `.htm` or `.html` (case-insensitively), append
`index.html` as a final path segment; names already ending in
`.htm`/`.html` are kept as-is after separator stripping. -/
def pathToAssetNameSpec (outputPath : List Char) : List Char :=
  let stripped : List Char :=
    match outputPath with
    | [] => []
    | c :: rest => if c = '/' ∨ c = '\\' then rest else c :: rest
  if ['.', 'h', 't', 'm'] <:+ stripped.map Char.toLower
      ∨ ['.', 'h', 't', 'm', 'l'] <:+ stripped.map Char.toLower then
    stripped
  else plainAppendIndexHtml stripped

/-- The derivation in the words of the amended claim C7: strip a leading
path separator; exactly when the stripped name does not already end in
`.htm` or `.html` (case-insensitively), join it with `index.html` through
the platform path join, which appends `index.html` as a final path segment
and also normalizes the name (collapsing duplicate separators and resolving
`.` and `..` segments); names already ending in `.htm`/`.html` are kept
as-is after separator stripping, without normalization. -/
def pathToAssetNameSpecJoined (outputPath : List Char) : List Char :=
  let stripped : List Char :=
    match outputPath with
    | [] => []
    | c :: rest => if c = '/' ∨ c = '\\' then rest else c :: rest
  if ['.', 'h', 't', 'm'] <:+ stripped.map Char.toLower
      ∨ ['.', 'h', 't', 'm', 'l'] <:+ stripped.map Char.toLower then
    stripped
  else joinIndexHtml stripped

theorem regexHtmlTest_iff_suffix (t : List Char) :
    regexHtmlTest t = true ↔
      (['.', 'h', 't', 'm'] <:+ t.map Char.toLower
        ∨ ['.', 'h', 't', 'm', 'l'] <:+ t.map Char.toLower) := by
  simp [regexHtmlTest, List.isSuffixOf_iff_suffix]

theorem splitOnSlash_ne_nil (s : List Char) : splitOnSlash s ≠ [] := by
  cases s with
  | nil => simp [splitOnSlash]
  | cons c rest =>
    by_cases hc : c = '/'
    · simp [splitOnSlash, hc]
    · simp [splitOnSlash, hc]

theorem splitOnSlash_append (a b : List Char) :
    splitOnSlash (a ++ '/' :: b) = splitOnSlash a ++ splitOnSlash b := by
  induction a with
  | nil => simp [splitOnSlash]
  | cons c rest ih =>
    by_cases hc : c = '/'
    · simp [splitOnSlash, hc, ih]
    · cases hsp : splitOnSlash rest with
      | nil => exact absurd hsp (splitOnSlash_ne_nil rest)
      | cons hseg t =>
        have ih2 : splitOnSlash (rest ++ '/' :: b)
            = hseg :: (t ++ splitOnSlash b) := by
          rw [ih, hsp]; rfl
        show (if c = '/' then [] :: splitOnSlash (rest ++ '/' :: b)
          else (c :: (splitOnSlash (rest ++ '/' :: b)).headD [])
            :: (splitOnSlash (rest ++ '/' :: b)).tail)
          = splitOnSlash (c :: rest) ++ splitOnSlash b
        rw [if_neg hc, ih2]
        show _ = (if c = '/' then [] :: splitOnSlash rest
          else (c :: (splitOnSlash rest).headD [])
            :: (splitOnSlash rest).tail) ++ splitOnSlash b
        rw [if_neg hc, hsp]
        simp

theorem splitOnSlash_no_slash (s : List Char) (h : '/' ∉ s) :
    splitOnSlash s = [s] := by
  induction s with
  | nil => rfl
  | cons c rest ih =>
    have hc : ¬c = '/' := fun e => h (by simp [e])
    have hrest : '/' ∉ rest := fun hm => h (by simp [hm])
    simp [splitOnSlash, if_neg hc, ih hrest]

theorem mem_splitOnSlash_no_slash (s : List Char) :
    ∀ x ∈ splitOnSlash s, '/' ∉ x := by
  induction s with
  | nil =>
    intro x hx
    simp [splitOnSlash] at hx
    simp [hx]
  | cons c rest ih =>
    intro x hx
    by_cases hc : c = '/'
    · simp only [splitOnSlash, if_pos hc] at hx
      rcases List.mem_cons.1 hx with h | h
      · simp [h]
      · exact ih x h
    · simp only [splitOnSlash, if_neg hc] at hx
      rcases List.mem_cons.1 hx with h | h
      · subst h
        intro hmem
        rcases List.mem_cons.1 hmem with h0 | h0
        · exact hc h0.symm
        · have hmemhead : (splitOnSlash rest).headD [] ∈ splitOnSlash rest := by
            cases hsp : splitOnSlash rest with
            | nil => exact absurd hsp (splitOnSlash_ne_nil rest)
            | cons hseg t => simp [hsp]
          exact ih _ hmemhead h0
      · exact ih x (List.mem_of_mem_tail h)

theorem processSegments_append (isAbs : Bool) (l1 l2 : List (List Char)) :
    ∀ acc, processSegments isAbs acc (l1 ++ l2)
      = processSegments isAbs (processSegments isAbs acc l1) l2 := by
  induction l1 with
  | nil => intro acc; simp [processSegments]
  | cons seg rest ih =>
    intro acc
    simp only [List.cons_append, processSegments]
    by_cases h1 : seg = [] ∨ seg = ['.']
    · simp [h1, ih]
    · by_cases h2 : seg = ['.', '.']
      · by_cases h3 : acc ≠ [] ∧ acc.getLast? ≠ some ['.', '.']
        · simp [h1, h2, h3, ih]
        · cases isAbs <;> simp [h1, h2, h3, ih]
      · simp [h1, h2, ih]

theorem processSegments_mem (isAbs : Bool) (l : List (List Char)) :
    ∀ acc x, x ∈ processSegments isAbs acc l →
      x ∈ acc ∨ x ∈ l ∨ x = ['.', '.'] := by
  induction l with
  | nil =>
    intro acc x hx
    exact Or.inl (by simpa [processSegments] using hx)
  | cons seg rest ih =>
    intro acc x hx
    simp only [processSegments] at hx
    by_cases h1 : seg = [] ∨ seg = ['.']
    · rw [if_pos h1] at hx
      rcases ih acc x hx with h | h | h
      · exact Or.inl h
      · exact Or.inr (Or.inl (List.mem_cons_of_mem _ h))
      · exact Or.inr (Or.inr h)
    · rw [if_neg h1] at hx
      by_cases h2 : seg = ['.', '.']
      · rw [if_pos h2] at hx
        by_cases h3 : acc ≠ [] ∧ acc.getLast? ≠ some ['.', '.']
        · rw [if_pos h3] at hx
          rcases ih _ x hx with h | h | h
          · exact Or.inl (List.dropLast_prefix acc |>.subset h)
          · exact Or.inr (Or.inl (List.mem_cons_of_mem _ h))
          · exact Or.inr (Or.inr h)
        · rw [if_neg h3] at hx
          by_cases h4 : isAbs = true
          · rw [if_pos h4] at hx
            rcases ih acc x hx with h | h | h
            · exact Or.inl h
            · exact Or.inr (Or.inl (List.mem_cons_of_mem _ h))
            · exact Or.inr (Or.inr h)
          · rw [if_neg h4] at hx
            rcases ih _ x hx with h | h | h
            · rcases List.mem_append.1 h with h0 | h0
              · exact Or.inl h0
              · exact Or.inr (Or.inr (by simpa [h2] using h0))
            · exact Or.inr (Or.inl (List.mem_cons_of_mem _ h))
            · exact Or.inr (Or.inr h)
      · rw [if_neg h2] at hx
        rcases ih _ x hx with h | h | h
        · rcases List.mem_append.1 h with h0 | h0
          · exact Or.inl h0
          · exact Or.inr (Or.inl (by simpa using Or.inl (by simpa using h0)))
        · exact Or.inr (Or.inl (List.mem_cons_of_mem _ h))
        · exact Or.inr (Or.inr h)

theorem processSegments_single_index (isAbs : Bool) (acc : List (List Char)) :
    processSegments isAbs acc [indexHtmlChars] = acc ++ [indexHtmlChars] := by
  have h1 : ¬(indexHtmlChars = [] ∨ indexHtmlChars = ['.']) := by decide
  have h2 : ¬(indexHtmlChars = ['.', '.']) := by decide
  simp only [processSegments, if_neg h1, if_neg h2]

theorem intercalateSlash_concat (l : List (List Char)) (x : List Char) :
    intercalateSlash (l ++ [x])
      = if l = [] then x else intercalateSlash l ++ '/' :: x := by
  induction l with
  | nil => simp [intercalateSlash]
  | cons s rest ih =>
    have hne : rest ++ [x] ≠ [] := by simp
    simp only [List.cons_append, intercalateSlash, List.append_eq, if_neg hne,
      ih]
    by_cases h : rest = []
    · simp [h, intercalateSlash]
    · simp [h, intercalateSlash]

theorem splitOnSlash_intercalate (segs : List (List Char)) (hne : segs ≠ [])
    (hfree : ∀ x ∈ segs, '/' ∉ x) :
    splitOnSlash (intercalateSlash segs) = segs := by
  induction segs with
  | nil => exact absurd rfl hne
  | cons s rest ih =>
    by_cases h : rest = []
    · subst h
      simp only [intercalateSlash, if_pos rfl]
      exact splitOnSlash_no_slash s (hfree s (by simp))
    · have hrest : ∀ x ∈ rest, '/' ∉ x := fun x hx => hfree x (by simp [hx])
      simp only [intercalateSlash, if_neg h]
      rw [splitOnSlash_append, splitOnSlash_no_slash s (hfree s (by simp)),
        ih h hrest]
      rfl

/-- The last path segment of a joined name is always `index.html`: the
appended segment is pushed last during normalization and nothing after it
can remove it. -/
theorem joinIndexHtml_last_segment (s : List Char) :
    (splitOnSlash (joinIndexHtml s)).getLast? = some indexHtmlChars := by
  have hidx : '/' ∉ indexHtmlChars := by decide
  by_cases hs : s = []
  · subst hs
    decide
  · simp only [joinIndexHtml, if_neg hs]
    have hsp : splitOnSlash (s ++ '/' :: indexHtmlChars)
        = splitOnSlash s ++ [indexHtmlChars] := by
      rw [splitOnSlash_append, splitOnSlash_no_slash indexHtmlChars hidx]
    set t := s ++ '/' :: indexHtmlChars with ht
    have hproc : processSegments (isAbsolutePosix t) [] (splitOnSlash t)
        = processSegments (isAbsolutePosix t) [] (splitOnSlash s)
            ++ [indexHtmlChars] := by
      rw [hsp, processSegments_append, processSegments_single_index]
    set acc0 := processSegments (isAbsolutePosix t) [] (splitOnSlash s)
      with hacc
    have hfree : ∀ x ∈ acc0 ++ [indexHtmlChars], '/' ∉ x := by
      intro x hx
      rcases List.mem_append.1 hx with h | h
      · rcases processSegments_mem _ _ _ x h with h0 | h0 | h0
        · exact absurd h0 (List.not_mem_nil x)
        · exact mem_splitOnSlash_no_slash s x h0
        · subst h0; decide
      · have : x = indexHtmlChars := by simpa using h
        subst this; exact hidx
    have hbody : splitOnSlash (intercalateSlash (acc0 ++ [indexHtmlChars]))
        = acc0 ++ [indexHtmlChars] :=
      splitOnSlash_intercalate _ (by simp) hfree
    have hbody_ne : intercalateSlash (acc0 ++ [indexHtmlChars]) ≠ [] := by
      rw [intercalateSlash_concat]
      by_cases h : acc0 = [] <;> simp [h]
      decide
    simp only [normalizePosix, hproc]
    by_cases habs : isAbsolutePosix t = true
    · rw [if_pos habs, if_neg hbody_ne]
      have hsplit2 : splitOnSlash
            ('/' :: intercalateSlash (acc0 ++ [indexHtmlChars]))
          = ([] :: acc0) ++ [indexHtmlChars] := by
        simp only [splitOnSlash, if_pos rfl, hbody]
        rfl
      rw [hsplit2]
      exact List.getLast?_concat _
    · rw [if_neg habs, if_neg hbody_ne, hbody]
      exact List.getLast?_concat _

/-- C7 counterexample: for the generator output name `./about` the code
derives `about/index.html` — the host `path.join` normalizes the leading
dot segment away — while the claim's strip-then-append derivation yields
`./about/index.html`.  The two differ, so the claim as stated is false. -/
theorem pathToAssetName_plain_append_counterexample :
    pathToAssetName ['.', '/', 'a', 'b', 'o', 'u', 't']
        = ['a', 'b', 'o', 'u', 't', '/',
           'i', 'n', 'd', 'e', 'x', '.', 'h', 't', 'm', 'l']
    ∧ pathToAssetNameSpec ['.', '/', 'a', 'b', 'o', 'u', 't']
        = ['.', '/', 'a', 'b', 'o', 'u', 't', '/',
           'i', 'n', 'd', 'e', 'x', '.', 'h', 't', 'm', 'l']
    ∧ pathToAssetName ['.', '/', 'a', 'b', 'o', 'u', 't']
        ≠ pathToAssetNameSpec ['.', '/', 'a', 'b', 'o', 'u', 't'] := by
  decide

/-- C7 as amended: the asset name is obtained by stripping a leading path
separator and then, exactly when the name does not already end in `.htm` or
`.html` (case-insensitively), joining it with `index.html` through the
platform path join — which appends `index.html` as a final path segment and
normalizes the name (collapsing duplicate separators and resolving `.` and
`..` segments); names already ending in `.htm`/`.html` are kept as-is after
separator stripping.  In particular, whenever the joining branch runs, the
final path segment of the derived asset name is `index.html`. -/
theorem pathToAssetName_matches_amended_spec (p : List Char) :
    pathToAssetName p = pathToAssetNameSpecJoined p
    ∧ (regexHtmlTest (stripLeadingSlash p) = false →
        (splitOnSlash (pathToAssetName p)).getLast? = some indexHtmlChars) := by
  have hmatch : (match p with
      | [] => ([] : List Char)
      | c :: rest => if c = '/' ∨ c = '\\' then rest else c :: rest)
      = stripLeadingSlash p := by
    cases p <;> rfl
  constructor
  · simp only [pathToAssetName, pathToAssetNameSpecJoined, hmatch]
    by_cases h : regexHtmlTest (stripLeadingSlash p) = true
    · rw [if_pos h, if_pos ((regexHtmlTest_iff_suffix _).1 h)]
    · rw [if_neg h, if_neg (fun hc => h ((regexHtmlTest_iff_suffix _).2 hc))]
  · intro h
    have hne : ¬(regexHtmlTest (stripLeadingSlash p) = true) := by simp [h]
    simp only [pathToAssetName, if_neg hne]
    exact joinIndexHtml_last_segment (stripLeadingSlash p)

/-- Witness for C7 (amended) at the concrete name `./about`: the joining
branch runs and the derived name's final path segment is `index.html`. -/
theorem pathToAssetName_matches_amended_spec_witness :
    (splitOnSlash (pathToAssetName ['.', '/', 'a', 'b', 'o', 'u', 't'])).getLast?
      = some indexHtmlChars := by
  have h := pathToAssetName_matches_amended_spec ['.', '/', 'a', 'b', 'o', 'u', 't']
  exact h.2 (by decide)

/-! ## exportAsset (src/IsomorphicHtmlWebpackPlugin.ts lines 134-141) -/

/-- The compilation's asset set: a mapping from asset name to source text
(RawSource objects are modelled by their string contents). -/
abbrev Assets := List (List Char × String)

def assetsGet : Assets → List Char → Option String
  | [], _ => none
  | (k0, v0) :: rest, k => if k0 = k then some v0 else assetsGet rest k

def assetsSet : Assets → List Char → String → Assets
  | [], k, v => [(k, v)]
  | (k0, v0) :: rest, k, v =>
    if k0 = k then (k, v) :: rest else (k0, v0) :: assetsSet rest k v

/-- Translated from `exportAsset` (lines 134-141).  The source throws before
the assignment when `compilation.assets[assetName]` is truthy (assets are
Source objects, so truthy exactly when present) and assigns
`compilation.assets[assetName] = new RawSource(source)` only on the
non-throwing path.  Modelled as returning the thrown error message together
with the resulting asset set. -/
def exportAsset (assets : Assets) (fileName : List Char) (source : String) :
    Option String × Assets :=
  let assetName := pathToAssetName fileName
  if (assetsGet assets assetName).isSome then
    (some ("asset of name \x27" ++ String.mk assetName ++ "\x27 already exported"),
     assets)
  else
    (none, assetsSet assets assetName source)

/-- C8: if the derived asset name of a generated entry collides with an
asset name already present, the Driver raises an error identifying the
duplicate name instead of overwriting, and the asset set (in particular the
existing asset) is left unchanged. -/
theorem exportAsset_duplicate_error (assets : Assets) (fileName : List Char)
    (source : String)
    (hdup : (assetsGet assets (pathToAssetName fileName)).isSome = true) :
    (exportAsset assets fileName source).1
        = some ("asset of name \x27" ++ String.mk (pathToAssetName fileName)
            ++ "\x27 already exported")
      ∧ (exportAsset assets fileName source).2 = assets := by
  simp [exportAsset, hdup]

/-- Witness for C8: a second write under the derived name `index.html`
fails with the duplicate-name error and leaves the asset set unchanged. -/
theorem exportAsset_duplicate_error_witness :
    (exportAsset [(indexHtmlChars, "old")] indexHtmlChars "new").1
        = some ("asset of name \x27index.html\x27 already exported")
      ∧ (exportAsset [(indexHtmlChars, "old")] indexHtmlChars "new").2
        = [(indexHtmlChars, "old")] := by
  have h := exportAsset_duplicate_error [(indexHtmlChars, "old")] indexHtmlChars
    "new" (by decide)
  exact ⟨h.1.trans (by decide), h.2⟩

/-! ## The driver's generator validation and invocation
(src/IsomorphicHtmlWebpackPlugin.ts lines 92-101) -/

/-- A JavaScript property value, one level deep (the driver only ever reads
one property, `default`, off the evaluated exports). -/
inductive JsPrim where
  | strP (s : String)
  | funcP (tag : Nat)
deriving DecidableEq, Repr

/-- A JavaScript value as the driver sees it: a string, `undefined`, a plain
object with own properties, or a function object (functions are objects and
may carry own properties too). -/
inductive JsVal where
  | strV (s : String)
  | undefV
  | objV (props : List (String × JsPrim))
  | funcV (tag : Nat) (props : List (String × JsPrim))
deriving DecidableEq, Repr

def JsPrim.toVal : JsPrim → JsVal
  | .strP s => .strV s
  | .funcP t => .funcV t []

def jsPropsGet : List (String × JsPrim) → String → Option JsPrim
  | [], _ => none
  | (k0, v0) :: rest, k => if k0 = k then some v0 else jsPropsGet rest k

/-- The JavaScript typeof operator restricted to the modelled values. -/
def typeofJs : JsVal → String
  | .strV _ => "string"
  | .undefV => "undefined"
  | .objV _ => "object"
  | .funcV _ _ => "function"

/-- Object.prototype.hasOwnProperty as used at line 92. -/
def hasOwnProp (v : JsVal) (k : String) : Bool :=
  match v with
  | .objV props => (jsPropsGet props k).isSome
  | .funcV _ props => (jsPropsGet props k).isSome
  | _ => false

/-- Property read, as in `generatorModule.default` at line 100. -/
def getPropJs (v : JsVal) (k : String) : JsVal :=
  match v with
  | .objV props => ((jsPropsGet props k).map JsPrim.toVal).getD .undefV
  | .funcV _ props => ((jsPropsGet props k).map JsPrim.toVal).getD .undefV
  | _ => .undefV

/-- The invocation the driver performs at line 101: which function it calls
and the two positional arguments, in order. -/
structure GeneratorCall where
  callee : JsVal
  arg1 : JsVal
  arg2 : JsVal
deriving DecidableEq, Repr

/-- Translated from `IsomorphicHtmlWebpackPlugin.generate`, lines 92-101:
the validation of the evaluated exports and the generator invocation
`generate(webpackStats, locals)`.  The source first requires an own
`default` property (line 92), then tests `typeof generatorModule` — the
whole exports value, not `generatorModule.default` — against
"function" (line 95), and only then calls
`generatorModule.default(webpackStats, locals)`.  The result records the
call made or carries the thrown error message. -/
def generateCheckAndCall (generatorModule : JsVal) (entry : String)
    (webpackStats locals : JsVal) : Except String GeneratorCall :=
  if !(hasOwnProp generatorModule "default") then
    .error ("entry point \x27" ++ entry ++ "\x27 doesn\x27t have a default export")
  else if typeofJs generatorModule ≠ "function" then
    .error ("default export from entry point \x27" ++ entry
      ++ "\x27 must be a function; got " ++ typeofJs generatorModule)
  else
    .ok ⟨getPropJs generatorModule "default", webpackStats, locals⟩

/-- C2 (evaluating the code at the relevant input): the source invokes the
generator as `generate(webpackStats, locals)` — stats first — not
`(locals, buildStats)` as the claim states.  For a module that passes the
driver's two checks, the produced call record has the stats snapshot in
first position and the configured locals in second position, and the two
values are distinct, so the order is observable. -/
theorem generate_passes_stats_before_locals :
    generateCheckAndCall (.funcV 0 [("default", .funcP 1)]) "test"
        (.strV "stats-snapshot") (.strV "locals-mapping")
      = .ok ⟨.funcV 1 [], .strV "stats-snapshot", .strV "locals-mapping"⟩
    ∧ (JsVal.strV "stats-snapshot") ≠ (JsVal.strV "locals-mapping") :=
  ⟨rfl, by decide⟩

/-- C3 (evaluating the code at the failing input): for the exports value the
bundler actually produces — a plain object with a callable `default`
property — the driver never calls the generator; it throws the
must-be-a-function error, because line 95 tests `typeof generatorModule`
(which is "object" for an exports object) instead of
`typeof generatorModule.default`. -/
theorem generate_rejects_object_with_callable_default :
    typeofJs (getPropJs (.objV [("default", .funcP 7)]) "default") = "function"
    ∧ hasOwnProp (.objV [("default", .funcP 7)]) "default" = true
    ∧ generateCheckAndCall (.objV [("default", .funcP 7)]) "test"
        (.strV "stats") (.strV "locals")
      = .error
          ("default export from entry point \x27test\x27 must be a function; got object") :=
  ⟨rfl, rfl, rfl⟩

/-! ## Fake Browser Provider read-only globals (modelled from the spec)

The Fake Browser Provider component is not present under src/; the following
definitions are modelled from the spec (sections 3 and 4.3): each of the six
reserved names is exposed via a getter with no setter, and an assignment to
such a name fails immediately with an explicit error identifying the name. -/

/-- Modelled from the spec: a global installed by the Fake Browser Provider,
described by its name and its accessor pair. -/
structure InstalledGlobal where
  name : String
  hasGetter : Bool
  hasSetter : Bool
deriving DecidableEq, Repr

/-- The six reserved read-only names of the spec's ReadOnlyGlobal entry. -/
def readOnlyGlobalNames : List String :=
  ["window", "document", "self", "setTimeout", "clearTimeout", "console"]

/-- Modelled from the spec: installing a read-only global — a getter, no
setter. -/
def installReadOnlyGlobal (n : String) : InstalledGlobal :=
  { name := n, hasGetter := true, hasSetter := false }

/-- Modelled from the spec: the outcome of an assignment to an installed
global.  An assignment can only succeed through a setter; with no setter it
fails immediately with an explicit error naming the assigned property — it
is never silently ignored. -/
def assignToInstalled (g : InstalledGlobal) : Except String InstalledGlobal :=
  if g.hasSetter then .ok g
  else .error ("Cannot assign to read-only global \x27" ++ g.name ++ "\x27")

/-- C9: every declared read-only global installed by the Fake Browser
Provider (`window`, `document`, `self`, `setTimeout`, `clearTimeout`,
`console`) is exposed via a getter with no setter, and every attempted
assignment to one of these names fails immediately with an explicit error
that names the assigned property, never silently. -/
theorem readOnlyGlobal_assignment_fails (n : String)
    (_hn : n ∈ readOnlyGlobalNames) :
    (installReadOnlyGlobal n).hasGetter = true
    ∧ (installReadOnlyGlobal n).hasSetter = false
    ∧ assignToInstalled (installReadOnlyGlobal n)
        = .error ("Cannot assign to read-only global \x27" ++ n ++ "\x27") := by
  simp [installReadOnlyGlobal, assignToInstalled]

/-- Witness for C9 at the name `window`. -/
theorem readOnlyGlobal_assignment_fails_witness :
    assignToInstalled (installReadOnlyGlobal "window")
      = .error ("Cannot assign to read-only global \x27window\x27") := by
  have h := readOnlyGlobal_assignment_fails "window" (by decide)
  exact h.2.2.trans rfl

/-! ## The sandbox construction (src/evaluate.ts lines 12-37; the unnamed
variant which additionally installs a synthetic `process`, lines 11-47) -/

/-- Translated from `requireLike` (src/evaluate.ts lines 42-58; identical in
the unnamed variant lines 51-68).  `new Module(path)` allocates a fresh
parent-module object whose `filename` is `path` and whose `paths` come from
`Module._nodeModulePaths(dirname(path))` — a host computation recorded as a
tagged primitive.  The returned require function closes over that parent
module; its `resolve` delegates to the host resolver with the same parent;
`main := process.mainModule`, `extensions := require.extensions` and
`cache := require.cache` hand it the host module loader's objects, which are
the same for every call. -/
def requireLike (h : Heap) (path : String) : Heap × HVal :=
  let (h1, pm) := h.alloc
    [("filename", .prim path), ("paths", .prim ("nodeModulePaths:" ++ path))]
  (h1, .requireFn pm .hostMainModule .hostRequireExtensions .hostRequireCache)

def requireCacheOf : HVal → Option HVal
  | .requireFn _ _ _ c => some c
  | _ => none

def requireExtensionsOf : HVal → Option HVal
  | .requireFn _ _ e _ => some e
  | _ => none

def requireMainOf : HVal → Option HVal
  | .requireFn _ m _ _ => some m
  | _ => none

def requireParentOf : HVal → Option Nat
  | .requireFn p _ _ _ => some p
  | _ => none

/-- The state `evaluate` has built when it hands the sandbox to the vm
script: the heap, the sandbox object, the fresh exports object, the require
function, the module descriptor and (in the variant) the synthetic process
object. -/
structure EvaluateCtx where
  heap : Heap
  sandboxRef : Nat
  exportsRef : Nat
  requireVal : HVal
  moduleRef : Nat
  processRef : Option Nat
deriving DecidableEq, Repr

/-- Translated from `evaluate` (src/evaluate.ts lines 12-37; with
`withProcess := true`, the unnamed variant lines 11-47): the construction of
the sandbox context in which the vm script then runs.
`const sandbox = { ...globals }` allocates a fresh object holding a shallow
copy of the caller's own properties; then `sandbox.exports = {}` (a fresh
empty object), `sandbox.require = requireLike(moduleName)`,
`sandbox.module = { filename, id, parent: module, require: sandbox.require,
get/set exports }` (the accessor pair is behavior, modelled by
`moduleDescGet` and `moduleDescSetExports` below), in the variant
`sandbox.process = { title: moduleName, version, arch, platform, release,
env }` with the fields destructured from the host process, and finally
`sandbox.global = sandbox`.  The script execution itself (line 34-35 /
43-44) is modelled separately. -/
def buildSandbox (h : Heap) (globalsRef : Nat) (moduleName : String)
    (withProcess : Bool) : EvaluateCtx :=
  let (h1, sb) := h.alloc (h.get globalsRef)
  let (h2, ex) := h1.alloc []
  let h3 := h2.setProp sb "exports" (.ref ex)
  let (h4, req) := requireLike h3 moduleName
  let h5 := h4.setProp sb "require" req
  let (h6, md) := h5.alloc
    [("filename", .prim moduleName), ("id", .prim moduleName),
     ("parent", .hostModule), ("require", req)]
  let h7 := h6.setProp sb "module" (.ref md)
  if withProcess then
    let (h8, pr) := h7.alloc
      [("title", .prim moduleName), ("version", .hostProcessVersion),
       ("arch", .hostProcessArch), ("platform", .hostProcessPlatform),
       ("release", .hostProcessRelease), ("env", .hostProcessEnv)]
    let h9 := h8.setProp sb "process" (.ref pr)
    let h10 := h9.setProp sb "global" (.ref sb)
    ⟨h10, sb, ex, req, md, some pr⟩
  else
    let h8 := h7.setProp sb "global" (.ref sb)
    ⟨h8, sb, ex, req, md, none⟩

/-- The references allocated by one `buildSandbox` call are the next
consecutive heap positions, and the require function carries the host
loader's objects. -/
theorem buildSandbox_refs (h : Heap) (g : Nat) (name : String) (w : Bool) :
    (buildSandbox h g name w).sandboxRef = h.objs.length
    ∧ (buildSandbox h g name w).exportsRef = h.objs.length + 1
    ∧ (buildSandbox h g name w).moduleRef = h.objs.length + 3
    ∧ (buildSandbox h g name w).requireVal
        = .requireFn (h.objs.length + 2) .hostMainModule .hostRequireExtensions
            .hostRequireCache
    ∧ (buildSandbox h g name w).processRef
        = (if w then some (h.objs.length + 4) else none)
    ∧ (buildSandbox h g name w).heap.objs.length
        = h.objs.length + (if w then 5 else 4) := by
  cases w <;>
    simp [buildSandbox, requireLike, Heap.alloc, Heap.setProp]

/-- The construction writes only to freshly allocated objects: any object
that existed before the call reads back unchanged. -/
theorem buildSandbox_frame (h : Heap) (g : Nat) (name : String) (w : Bool)
    (hg : g < h.objs.length) :
    (buildSandbox h g name w).heap.get g = h.get g := by
  have h1 : g ≠ h.objs.length := by omega
  cases w <;>
  · simp [buildSandbox, requireLike, Heap.alloc, Heap.setProp, Heap.get,
      List.getElem?_append, List.getElem?_set_ne h1, hg]

/-- The sandbox object ends up as the shallow copy of the globals object
with the bindings `exports`, `require`, `module` (and `process` in the
variant) and `global` written on top. -/
theorem buildSandbox_sandbox_obj (h : Heap) (g : Nat) (name : String)
    (w : Bool) :
    (buildSandbox h g name w).heap.get ((buildSandbox h g name w).sandboxRef)
      = (if w then
          objSet (objSet (objSet (objSet (objSet (h.get g)
            "exports" (.ref (h.objs.length + 1)))
            "require" (.requireFn (h.objs.length + 2) .hostMainModule
              .hostRequireExtensions .hostRequireCache))
            "module" (.ref (h.objs.length + 3)))
            "process" (.ref (h.objs.length + 4)))
            "global" (.ref h.objs.length)
        else
          objSet (objSet (objSet (objSet (h.get g)
            "exports" (.ref (h.objs.length + 1)))
            "require" (.requireFn (h.objs.length + 2) .hostMainModule
              .hostRequireExtensions .hostRequireCache))
            "module" (.ref (h.objs.length + 3)))
            "global" (.ref h.objs.length)) := by
  cases w <;>
  · simp [buildSandbox, requireLike, Heap.alloc, Heap.setProp, Heap.get,
      List.getElem?_append, List.getElem?_set, List.getElem_append_right,
      Nat.sub_self, List.getElem_cons_zero]

/-- C10: `evaluate` leaves the caller's globals object itself unmodified —
after the call it has exactly the own properties and property values it had
before.  The bindings `exports`, `require`, `module`, `global` (and the
synthetic `process` exactly when the variant is used) are installed on a
fresh shallow copy of the globals: the sandbox is a different object, it
carries those bindings, and for every other property name it holds the very
value the caller's object holds (values are shared, not copied). -/
theorem evaluate_preserves_caller_globals (h : Heap) (g : Nat) (name : String)
    (w : Bool) (hg : g < h.objs.length) :
    (buildSandbox h g name w).heap.get g = h.get g
    ∧ (buildSandbox h g name w).sandboxRef ≠ g
    ∧ objGet ((buildSandbox h g name w).heap.get
        (buildSandbox h g name w).sandboxRef) "exports"
        = some (.ref (buildSandbox h g name w).exportsRef)
    ∧ objGet ((buildSandbox h g name w).heap.get
        (buildSandbox h g name w).sandboxRef) "require"
        = some (buildSandbox h g name w).requireVal
    ∧ objGet ((buildSandbox h g name w).heap.get
        (buildSandbox h g name w).sandboxRef) "module"
        = some (.ref (buildSandbox h g name w).moduleRef)
    ∧ objGet ((buildSandbox h g name w).heap.get
        (buildSandbox h g name w).sandboxRef) "global"
        = some (.ref (buildSandbox h g name w).sandboxRef)
    ∧ (w = true → ∃ pr, (buildSandbox h g name w).processRef = some pr
        ∧ objGet ((buildSandbox h g name w).heap.get
            (buildSandbox h g name w).sandboxRef) "process"
            = some (.ref pr))
    ∧ (w = false → (buildSandbox h g name w).processRef = none)
    ∧ (∀ k : String,
        k ∉ (["exports", "require", "module", "process", "global"] : List String) →
        objGet ((buildSandbox h g name w).heap.get
          (buildSandbox h g name w).sandboxRef) k = objGet (h.get g) k) := by
  obtain ⟨hsb, hex, hmd, hreq, hpr, hlen⟩ := buildSandbox_refs h g name w
  have hobj := buildSandbox_sandbox_obj h g name w
  refine ⟨buildSandbox_frame h g name w hg, by rw [hsb]; omega,
    ?_, ?_, ?_, ?_, ?_, ?_, ?_⟩
  · rw [hobj, hex]
    cases w <;> simp [objGet_objSet_ne, objGet_objSet_self]
  · rw [hobj, hreq]
    cases w <;> simp [objGet_objSet_ne, objGet_objSet_self]
  · rw [hobj, hmd]
    cases w <;> simp [objGet_objSet_ne, objGet_objSet_self]
  · rw [hobj, hsb]
    cases w <;> simp [objGet_objSet_ne, objGet_objSet_self]
  · intro hw
    subst hw
    refine ⟨h.objs.length + 4, by rw [hpr]; rfl, ?_⟩
    rw [hobj]
    simp [objGet_objSet_ne, objGet_objSet_self]
  · intro hw
    subst hw
    rw [hpr]
    rfl
  · intro k hk
    simp only [List.mem_cons, List.mem_singleton, not_or] at hk
    obtain ⟨hk1, hk2, hk3, hk4, hk5, -⟩ := hk
    rw [hobj]
    cases w
    · rw [if_neg (by decide)]
      rw [objGet_objSet_ne _ _ _ _ hk5, objGet_objSet_ne _ _ _ _ hk3,
        objGet_objSet_ne _ _ _ _ hk2, objGet_objSet_ne _ _ _ _ hk1]
    · rw [if_pos (by decide)]
      rw [objGet_objSet_ne _ _ _ _ hk5, objGet_objSet_ne _ _ _ _ hk4,
        objGet_objSet_ne _ _ _ _ hk3, objGet_objSet_ne _ _ _ _ hk2,
        objGet_objSet_ne _ _ _ _ hk1]

/-- Witness for C10: a concrete globals object with one property `d` reads
back unchanged after the sandbox is built, and the sandbox is a different
object. -/
theorem evaluate_preserves_caller_globals_witness :
    (buildSandbox ⟨[[("d", HVal.prim "d")]]⟩ 0 "test" true).heap.get 0
        = Heap.get ⟨[[("d", HVal.prim "d")]]⟩ 0
    ∧ (buildSandbox ⟨[[("d", HVal.prim "d")]]⟩ 0 "test" true).sandboxRef ≠ 0 := by
  have h := evaluate_preserves_caller_globals ⟨[[("d", HVal.prim "d")]]⟩ 0
    "test" true (by decide)
  exact ⟨h.1, h.2.1⟩

/-- C6 counterexample: an outer evaluation and a nested one obtain require
functions whose `cache` is the very same host object
(`requireLike.cache = require.cache`, src/evaluate.ts line 56).  The host
module cache is mutable state that was not passed to either evaluation as an
argument, yet it is reachable through the require function handed to both
contexts — so the two evaluations do share mutable state, contradicting the
claim. -/
theorem requireLike_shares_host_cache :
    requireCacheOf
        (buildSandbox (Heap.empty.alloc []).1 0 "outer" false).requireVal
      = some HVal.hostRequireCache
    ∧ requireCacheOf
        (buildSandbox
          (buildSandbox (Heap.empty.alloc []).1 0 "outer" false).heap
          0 "inner" false).requireVal
      = some HVal.hostRequireCache
    ∧ (buildSandbox (Heap.empty.alloc []).1 0 "outer" false).sandboxRef
      ≠ (buildSandbox
          (buildSandbox (Heap.empty.alloc []).1 0 "outer" false).heap
          0 "inner" false).sandboxRef := by
  decide

/-- C6 as amended: every evaluation gets its own SandboxContext — the
sandbox object, the exports object, the module descriptor and require's
parent module of a second evaluation are all distinct from those of the
first — but the require functions handed to the contexts share the host
module loader's cache, extensions registry and main-module reference, so
mutable state reachable through `require` is shared across evaluations. -/
theorem evaluations_fresh_but_share_loader_state (h : Heap) (g1 g2 : Nat)
    (n1 n2 : String) (w1 w2 : Bool) :
    ((buildSandbox h g1 n1 w1).sandboxRef
        ≠ (buildSandbox (buildSandbox h g1 n1 w1).heap g2 n2 w2).sandboxRef
      ∧ (buildSandbox h g1 n1 w1).exportsRef
        ≠ (buildSandbox (buildSandbox h g1 n1 w1).heap g2 n2 w2).exportsRef
      ∧ (buildSandbox h g1 n1 w1).moduleRef
        ≠ (buildSandbox (buildSandbox h g1 n1 w1).heap g2 n2 w2).moduleRef
      ∧ requireParentOf (buildSandbox h g1 n1 w1).requireVal
        ≠ requireParentOf
            (buildSandbox (buildSandbox h g1 n1 w1).heap g2 n2 w2).requireVal)
    ∧ (requireCacheOf (buildSandbox h g1 n1 w1).requireVal
        = requireCacheOf
            (buildSandbox (buildSandbox h g1 n1 w1).heap g2 n2 w2).requireVal
      ∧ requireCacheOf (buildSandbox h g1 n1 w1).requireVal
        = some HVal.hostRequireCache
      ∧ requireExtensionsOf (buildSandbox h g1 n1 w1).requireVal
        = requireExtensionsOf
            (buildSandbox (buildSandbox h g1 n1 w1).heap g2 n2 w2).requireVal
      ∧ requireExtensionsOf (buildSandbox h g1 n1 w1).requireVal
        = some HVal.hostRequireExtensions
      ∧ requireMainOf (buildSandbox h g1 n1 w1).requireVal
        = requireMainOf
            (buildSandbox (buildSandbox h g1 n1 w1).heap g2 n2 w2).requireVal
      ∧ requireMainOf (buildSandbox h g1 n1 w1).requireVal
        = some HVal.hostMainModule) := by
  obtain ⟨hsb1, hex1, hmd1, hreq1, hpr1, hlen1⟩ := buildSandbox_refs h g1 n1 w1
  obtain ⟨hsb2, hex2, hmd2, hreq2, hpr2, hlen2⟩ :=
    buildSandbox_refs (buildSandbox h g1 n1 w1).heap g2 n2 w2
  rw [hsb1, hsb2, hex1, hex2, hmd1, hmd2, hreq1, hreq2, hlen1]
  cases w1 <;>
    simp [requireParentOf, requireCacheOf, requireExtensionsOf, requireMainOf]

/-! ## The exports binding, the module.exports accessor pair and the value
returned by evaluate (src/evaluate.ts lines 17-37) -/

/-- The part of the sandbox that the export idioms touch: the heap of
objects and the sandbox's `exports` property (the binding that the bare
identifier `exports` resolves to inside the vm context). -/
structure SandboxSt where
  heap : Heap
  exportsSlot : HVal
deriving DecidableEq, Repr

/-- Line 17: `sandbox.exports = {}` — the binding starts as a reference to a
fresh empty object. -/
def initSandboxSt (h : Heap) : SandboxSt :=
  let (h1, ex) := h.alloc []
  ⟨h1, .ref ex⟩

/-- Property read on the `module` descriptor (lines 19-31): `filename` and
`id` are the moduleName (lines 20-21), `parent` is the host module (line
22), `require` is the sandbox's require (line 23), and `exports` is the
accessor that returns the sandbox's current `exports` binding (the getter,
lines 25-27). -/
def moduleDescGet (moduleName : String) (req : HVal) (st : SandboxSt)
    (k : String) : HVal :=
  if k = "filename" then .prim moduleName
  else if k = "id" then .prim moduleName
  else if k = "parent" then .hostModule
  else if k = "require" then req
  else if k = "exports" then st.exportsSlot
  else .undefVal

/-- The `module.exports` setter (lines 28-30): writing `module.exports`
stores into the sandbox's `exports` binding. -/
def moduleDescSetExports (st : SandboxSt) (v : HVal) : SandboxSt :=
  { st with exportsSlot := v }

/-- The export idioms of evaluated top-level code named by claim C1.  In the
vm context the bare identifiers `exports` and `module` resolve to the
sandbox's properties. -/
inductive Stmt where
  | exportsSetProp (k : String) (v : HVal)
  | exportsAssign (v : HVal)
  | moduleExportsSetProp (k : String) (v : HVal)
  | moduleExportsAssign (v : HVal)
deriving DecidableEq, Repr

/-- A property write `target.k = v`.  On a non-object target the write is
dropped silently: vm scripts run in non-strict mode, where assigning a
property of a primitive is ignored. -/
def setPropOn (st : SandboxSt) (target : HVal) (k : String) (v : HVal) :
    SandboxSt :=
  match target with
  | .ref r => { st with heap := st.heap.setProp r k v }
  | _ => st

/-- One statement of evaluated code: `exports.k = v`, `exports = v`,
`module.exports.k = v` or `module.exports = v`, with the reads and writes of
`exports`/`module.exports` resolved exactly as lines 17-31 define them. -/
def stepStmt (mn : String) (req : HVal) (st : SandboxSt) : Stmt → SandboxSt
  | .exportsSetProp k v => setPropOn st st.exportsSlot k v
  | .exportsAssign v => { st with exportsSlot := v }
  | .moduleExportsSetProp k v =>
    setPropOn st (moduleDescGet mn req st "exports") k v
  | .moduleExportsAssign v => moduleDescSetExports st v

/-- Top-level execution, statement by statement. -/
def execStmts (mn : String) (req : HVal) (st : SandboxSt)
    (prog : List Stmt) : SandboxSt :=
  prog.foldl (stepStmt mn req) st

/-- Line 37: `return sandbox.exports` — the binding is dereferenced when the
top-level statements have finished, not captured at the start. -/
def evaluateRet (mn : String) (req : HVal) (h : Heap) (prog : List Stmt) :
    HVal :=
  (execStmts mn req (initSandboxSt h) prog).exportsSlot

theorem moduleDescGet_exports (mn : String) (req : HVal) (st : SandboxSt) :
    moduleDescGet mn req st "exports" = st.exportsSlot := by
  simp [moduleDescGet]

/-- C1: the bare binding `exports` and the property `module.exports` observe
the same backing value at every reachable state (the getter reads, and the
setter writes, the sandbox's `exports` binding), and the value `evaluate`
returns is that binding at the moment top-level execution finishes.
Consequently each of the four idioms, performed as the last assignment,
determines the returned exports: reassignment of `exports` or of
`module.exports` makes that value the result, and a property write through
either name lands on the object the returned reference designates. -/
theorem evaluate_exports_module_alias (mn : String) (req : HVal) (h : Heap)
    (prog : List Stmt) (k : String) (v : HVal) (r : Nat)
    (hr : (execStmts mn req (initSandboxSt h) prog).exportsSlot = .ref r)
    (hlt : r < (execStmts mn req (initSandboxSt h) prog).heap.objs.length) :
    (∀ q : List Stmt,
      moduleDescGet mn req (execStmts mn req (initSandboxSt h) q) "exports"
        = (execStmts mn req (initSandboxSt h) q).exportsSlot)
    ∧ evaluateRet mn req h (prog ++ [Stmt.exportsAssign v]) = v
    ∧ evaluateRet mn req h (prog ++ [Stmt.moduleExportsAssign v]) = v
    ∧ (evaluateRet mn req h (prog ++ [Stmt.exportsSetProp k v]) = .ref r
       ∧ objGet ((execStmts mn req (initSandboxSt h)
            (prog ++ [Stmt.exportsSetProp k v])).heap.get r) k = some v)
    ∧ (evaluateRet mn req h (prog ++ [Stmt.moduleExportsSetProp k v]) = .ref r
       ∧ objGet ((execStmts mn req (initSandboxSt h)
            (prog ++ [Stmt.moduleExportsSetProp k v])).heap.get r) k
          = some v) := by
  have hstep : ∀ x : Stmt,
      execStmts mn req (initSandboxSt h) (prog ++ [x])
        = stepStmt mn req (execStmts mn req (initSandboxSt h) prog) x := by
    intro x
    simp [execStmts, List.foldl_append]
  refine ⟨fun q => moduleDescGet_exports mn req _, ?_, ?_, ?_, ?_⟩
  · simp [evaluateRet, hstep, stepStmt]
  · simp [evaluateRet, hstep, stepStmt, moduleDescSetExports]
  · constructor
    · simp [evaluateRet, hstep, stepStmt, setPropOn, hr]
    · rw [hstep]
      simp only [stepStmt, setPropOn, hr]
      rw [Heap.get_setProp_self _ _ _ _ hlt]
      exact objGet_objSet_self _ k v
  · constructor
    · simp [evaluateRet, hstep, stepStmt, setPropOn,
        moduleDescGet_exports, hr]
    · rw [hstep]
      simp only [stepStmt, setPropOn, moduleDescGet_exports, hr]
      rw [Heap.get_setProp_self _ _ _ _ hlt]
      exact objGet_objSet_self _ k v

/-- Witness for C1 at concrete programs: reassigning `exports` makes the
returned exports that value, and `exports.var0 = val0` lands on the object
the evaluation returns. -/
theorem evaluate_exports_module_alias_witness :
    evaluateRet "test" HVal.undefVal Heap.empty
        ([] ++ [Stmt.exportsAssign (HVal.prim "val1")]) = HVal.prim "val1"
    ∧ objGet ((execStmts "test" HVal.undefVal (initSandboxSt Heap.empty)
          ([] ++ [Stmt.exportsSetProp "var0" (HVal.prim "val0")])).heap.get 0)
        "var0" = some (HVal.prim "val0") := by
  have h := evaluate_exports_module_alias "test" HVal.undefVal Heap.empty []
    "var0" (HVal.prim "val1") 0 rfl (by decide)
  have h2 := evaluate_exports_module_alias "test" HVal.undefVal Heap.empty []
    "var0" (HVal.prim "val0") 0 rfl (by decide)
  exact ⟨h.2.1, h2.2.2.2.1.2⟩

end IsoHtml
